import Mathlib

/-!
Verification of the fuzzy-deduplication engine (`src/rust_core/src/fuzzy_dedupe.rs`):
text normalization, LCS-based similarity scoring, and greedy first-fit clustering.

Modelling conventions:
* Rust `&str` values are modelled as `List Char`; `str::as_bytes` is modelled by
  UTF-8 encoding each scalar value (`strBytes`).
* `f64` results are modelled as exact rationals, with a dedicated `F.nan`
  constructor for the result of `0.0 / 0.0`.  In this code base a division by
  zero only ever arises with a zero numerator (`min/max` with `min ≤ max`, and
  `2*M/(lenA+lenB)` with `M = 0` whenever `lenA + lenB = 0`), so `0/0 ↦ NaN`
  covers every reachable division by zero.  Comparisons against `NaN` are
  `false`, as in IEEE 754.
* The `threshold : f64` parameter is modelled as a rational.
-/

namespace FuzzyDedupe

/-- Model of the `f64` values produced by the similarity functions: an exact
rational, or NaN (produced by `0.0 / 0.0`). -/
inductive F where
  | nan : F
  | val : ℚ → F
deriving DecidableEq

/-- Model of `f64` division of two nonnegative integer quantities, as used in
`similarity_ratio` and `raw_similarity_ratio`.  A zero denominator yields NaN
(only `0/0` is reachable in this code base).  The quotient is built with
`mkRat` so that it evaluates by kernel reduction; `fdivNat_eq` restates it as
field division on `ℚ`. -/
def fdivNat (x y : ℕ) : F :=
  if y = 0 then F.nan else F.val (mkRat x y)

/-- Model of the `f64` comparison `v < c` (false when `v` is NaN). -/
def F.ltQ : F → ℚ → Bool
  | F.nan, _ => false
  | F.val q, c => decide (q < c)

/-- Model of the `f64` comparison `v >= t` (false when `v` is NaN). -/
def F.geQ : F → ℚ → Bool
  | F.nan, _ => false
  | F.val q, t => decide (t ≤ q)

/-- Rust strings are modelled as lists of characters. -/
abbrev Str := List Char

/-- Accumulating worker for `split_whitespace`: `acc` holds the current word,
reversed. -/
def splitWsAux : List Char → List Char → List (List Char)
  | [], [] => []
  | [], acc => [acc.reverse]
  | c :: rest, acc =>
    if c.isWhitespace then
      if acc = [] then splitWsAux rest []
      else acc.reverse :: splitWsAux rest []
    else splitWsAux rest (c :: acc)

/-- Model of Rust `str::split_whitespace`: the maximal whitespace-free
fragments of the string, in order, empty fragments discarded. -/
def split_whitespace (s : Str) : List Str := splitWsAux s []

/-- Model of `Vec<&str>::join(" ")`. -/
def joinSpace : List Str → Str
  | [] => []
  | [w] => w
  | w :: ws => w ++ ' ' :: joinSpace ws

/-- Model of `normalize_text`: split on whitespace, rejoin with single spaces,
lowercase. -/
def normalize_text (s : Str) : Str :=
  (joinSpace (split_whitespace s)).map Char.toLower

/-- UTF-8 encoding of one character, as a list of byte values. -/
def utf8Char (c : Char) : List ℕ :=
  let n := c.toNat
  if n < 128 then [n]
  else if n < 2048 then [192 + n / 64, 128 + n % 64]
  else if n < 65536 then [224 + n / 4096, 128 + n / 64 % 64, 128 + n % 64]
  else [240 + n / 262144, 128 + n / 4096 % 64, 128 + n / 64 % 64, 128 + n % 64]

/-- Model of `str::as_bytes`: the UTF-8 encoding of the string. -/
def strBytes (s : Str) : List ℕ := s.flatMap utf8Char

/-- One cell-by-cell pass of the inner loop of `lcs_length`: given the current
byte `x` of `a`, the remaining bytes of `b`, and the previous row starting at
position `j - 1`, produce the entries `curr[j], curr[j+1], …`; `left` is
`curr[j-1]`. -/
def lcsRowAux (x : ℕ) : List ℕ → List ℕ → ℕ → List ℕ
  | bj :: bs, pj :: ps, left =>
    let entry := if x = bj then pj + 1 else Nat.max left (ps.headD 0)
    entry :: lcsRowAux x bs ps entry
  | _, _, _ => []

/-- One iteration of the outer loop of `lcs_length`: compute the full next row
(`curr[0] = 0` is never written by the inner loop). -/
def lcsNextRow (x : ℕ) (b : List ℕ) (prev : List ℕ) : List ℕ :=
  0 :: lcsRowAux x b prev 0

/-- Model of `lcs_length`: two-row dynamic program; the answer is `prev[n]`
after the outer loop. -/
def lcs_length (a b : List ℕ) : ℕ :=
  (a.foldl (fun prev x => lcsNextRow x b prev) (List.replicate (b.length + 1) 0)).getLastD 0

/-- Model of `similarity_ratio`: emptiness checks on the raw inputs,
normalization, length-ratio pre-check, then the LCS ratio `2M / (lenA + lenB)`. -/
def similarity_ratio (a b : Str) : F :=
  if a = [] ∧ b = [] then F.val 1
  else if a = [] ∨ b = [] then F.val 0
  else
    let aBytes := strBytes (normalize_text a)
    let bBytes := strBytes (normalize_text b)
    let aLen := aBytes.length
    let bLen := bBytes.length
    let lenRatio := fdivNat (Nat.min aLen bLen) (Nat.max aLen bLen)
    if lenRatio.ltQ (mkRat 1 2) then lenRatio
    else fdivNat (2 * lcs_length aBytes bBytes) (aLen + bLen)

/-- Model of `raw_similarity_ratio`: like `similarity_ratio` but on
pre-normalized strings — no normalization and no length-ratio pre-check. -/
def raw_similarity_ratio (a b : Str) : F :=
  if a = [] ∧ b = [] then F.val 1
  else if a = [] ∨ b = [] then F.val 0
  else
    let aBytes := strBytes a
    let bBytes := strBytes b
    fdivNat (2 * lcs_length aBytes bBytes) (aBytes.length + bBytes.length)

/-- Model of the inner `for cluster in clusters.iter_mut()` loop of
`cluster_titles`: first-fit scan over the existing clusters; on success the
item `i` is appended to the first qualifying cluster, otherwise a new
singleton cluster is appended at the end. -/
def placeItem (normed : List Str) (threshold : ℚ) (i : ℕ) (x : Str) :
    List (List ℕ) → List (List ℕ)
  | [] => [[i]]
  | c :: cs =>
    if F.geQ (raw_similarity_ratio x (normed.getD (c.headD 0) [])) threshold then
      (c ++ [i]) :: cs
    else
      c :: placeItem normed threshold i x cs

/-- Model of the outer `for (i, title) in normed.iter().enumerate()` loop of
`cluster_titles`. -/
def clusterLoop (normed : List Str) (threshold : ℚ) :
    ℕ → List Str → List (List ℕ) → List (List ℕ)
  | _, [], cs => cs
  | i, x :: xs, cs => clusterLoop normed threshold (i + 1) xs (placeItem normed threshold i x cs)

/-- Model of `cluster_titles`: normalize every title once, then greedily place
each item, in input order, into the list of clusters. -/
def cluster_titles (titles : List Str) (threshold : ℚ) : List (List ℕ) :=
  let normed := titles.map normalize_text
  clusterLoop normed threshold 0 normed []

/-- Textbook recursive specification of the length of the longest common
subsequence of two lists. -/
def lcsSpec : List ℕ → List ℕ → ℕ
  | [], _ => 0
  | _ :: _, [] => 0
  | x :: xs, y :: ys =>
    if x = y then lcsSpec xs ys + 1
    else Nat.max (lcsSpec (x :: xs) ys) (lcsSpec xs (y :: ys))
termination_by a b => a.length + b.length

/-- Intended contents of a DP row: when the bytes of `a` consumed so far are
`rp` (most recent first) and the bytes of `b` consumed so far are `rb` (most
recent first), the row holds `lcsSpec rp rb` followed by the entries obtained
by consuming `bs` byte by byte. -/
def specCol (rp rb : List ℕ) : List ℕ → List ℕ
  | [] => [lcsSpec rp rb]
  | y :: ys => lcsSpec rp rb :: specCol rp (y :: rb) ys

/-- Index of the first cluster whose representative scores at least
`threshold` against the item `x`, if any. -/
def firstFit (normed : List Str) (threshold : ℚ) (x : Str) (cs : List (List ℕ)) : Option ℕ :=
  cs.findIdx? fun c => F.geQ (raw_similarity_ratio x (normed.getD (c.headD 0) [])) threshold

/-! ## Basic bridge lemmas -/

theorem fdivNat_eq (x y : ℕ) :
    fdivNat x y = if y = 0 then F.nan else F.val ((x : ℚ) / (y : ℚ)) := by
  unfold fdivNat
  split <;> simp [Rat.mkRat_eq_divInt, Rat.divInt_eq_div]

theorem utf8Char_ne_nil (c : Char) : utf8Char c ≠ [] := by
  simp only [utf8Char]
  repeat' split
  all_goals simp

theorem strBytes_eq_nil_iff (s : Str) : strBytes s = [] ↔ s = [] := by
  cases s with
  | nil => simp [strBytes]
  | cons c rest =>
    simp only [strBytes, List.flatMap_cons, List.append_eq_nil]
    exact ⟨fun h => absurd h.1 (utf8Char_ne_nil c), fun h => by simp at h⟩

theorem geQ_mono {r : F} {t₁ t₂ : ℚ} (h : t₁ ≤ t₂) (hg : F.geQ r t₂ = true) :
    F.geQ r t₁ = true := by
  cases r with
  | nan => simp [F.geQ] at hg
  | val q =>
    simp only [F.geQ, decide_eq_true_eq] at hg ⊢
    exact h.trans hg

/-! ## The two-row dynamic program computes `lcsSpec` -/

theorem specCol_headD (rp rb bs : List ℕ) : (specCol rp rb bs).headD 0 = lcsSpec rp rb := by
  cases bs <;> simp [specCol]

theorem specCol_cons_tail (rp rb bs : List ℕ) :
    specCol rp rb bs = lcsSpec rp rb :: (specCol rp rb bs).tail := by
  cases bs <;> simp [specCol]

theorem lcsRowAux_spec (x : ℕ) (bs : List ℕ) :
    ∀ rb rp, lcsRowAux x bs (specCol rp rb bs) (lcsSpec (x :: rp) rb) =
      (specCol (x :: rp) rb bs).tail := by
  induction bs with
  | nil => intro rb rp; simp [specCol, lcsRowAux]
  | cons y ys ih =>
    intro rb rp
    simp only [specCol, lcsRowAux]
    have hhead : (specCol rp (y :: rb) ys).headD 0 = lcsSpec rp (y :: rb) :=
      specCol_headD rp (y :: rb) ys
    have hentry : (if x = y then lcsSpec rp rb + 1
        else Nat.max (lcsSpec (x :: rp) rb) ((specCol rp (y :: rb) ys).headD 0)) =
        lcsSpec (x :: rp) (y :: rb) := by
      rw [hhead]
      simp [lcsSpec]
    rw [hentry, ih (y :: rb) rp]
    exact (specCol_cons_tail (x :: rp) (y :: rb) ys).symm

theorem lcsNextRow_spec (x : ℕ) (b rp : List ℕ) :
    lcsNextRow x b (specCol rp [] b) = specCol (x :: rp) [] b := by
  have h0 : lcsSpec (x :: rp) [] = 0 := by simp [lcsSpec]
  have h := lcsRowAux_spec x b [] rp
  rw [h0] at h
  unfold lcsNextRow
  rw [h]
  conv_rhs => rw [specCol_cons_tail (x :: rp) [] b, h0]

theorem specCol_nil_left (rb bs : List ℕ) :
    specCol [] rb bs = List.replicate (bs.length + 1) 0 := by
  induction bs generalizing rb with
  | nil => simp [specCol, lcsSpec]
  | cons y ys ih => simp [specCol, lcsSpec, List.replicate_succ, ih]

theorem foldl_lcsNextRow (b : List ℕ) (a : List ℕ) :
    ∀ rp, a.foldl (fun prev x => lcsNextRow x b prev) (specCol rp [] b) =
      specCol (a.reverse ++ rp) [] b := by
  induction a with
  | nil => intro rp; simp
  | cons x xs ih =>
    intro rp
    simp only [List.foldl_cons, lcsNextRow_spec, ih (x :: rp), List.reverse_cons,
      List.append_assoc, List.singleton_append]

theorem specCol_getLastD (rp : List ℕ) (bs : List ℕ) :
    ∀ rb d, (specCol rp rb bs).getLastD d = lcsSpec rp (bs.reverse ++ rb) := by
  induction bs with
  | nil => intro rb d; simp [specCol]
  | cons y ys ih =>
    intro rb d
    simp only [specCol, List.getLastD_cons, ih (y :: rb), List.reverse_cons,
      List.append_assoc, List.singleton_append]

theorem lcs_length_eq_lcsSpec_reverse (a b : List ℕ) :
    lcs_length a b = lcsSpec a.reverse b.reverse := by
  unfold lcs_length
  have hinit : List.replicate (b.length + 1) 0 = specCol [] [] b :=
    (specCol_nil_left [] b).symm
  rw [hinit, foldl_lcsNextRow b a [], List.append_nil, specCol_getLastD, List.append_nil]

/-! ## `lcsSpec` is the longest-common-subsequence length -/

theorem sublist_tail_of_cons_sublist_cons {z x : ℕ} {zs xs : List ℕ}
    (h : List.Sublist (z :: zs) (x :: xs)) : List.Sublist zs xs := by
  cases h with
  | cons _ h => exact (List.sublist_cons_self z zs).trans h
  | cons₂ _ h => exact h

theorem lcsSpec_exists (a b : List ℕ) :
    ∃ c : List ℕ, c.Sublist a ∧ c.Sublist b ∧ c.length = lcsSpec a b := by
  induction a, b using lcsSpec.induct with
  | case1 b => exact ⟨[], List.nil_sublist _, List.nil_sublist _, by simp [lcsSpec]⟩
  | case2 x xs => exact ⟨[], List.nil_sublist _, List.nil_sublist _, by simp [lcsSpec]⟩
  | case3 xs y ys ih =>
    obtain ⟨c, hca, hcb, hlen⟩ := ih
    exact ⟨y :: c, hca.cons₂ y, hcb.cons₂ y, by simp [lcsSpec, hlen]⟩
  | case4 x xs y ys hxy ih₁ ih₂ =>
    obtain ⟨c₁, h₁a, h₁b, h₁len⟩ := ih₁
    obtain ⟨c₂, h₂a, h₂b, h₂len⟩ := ih₂
    rcases Nat.le_total (lcsSpec (x :: xs) ys) (lcsSpec xs (y :: ys)) with hle | hle
    · refine ⟨c₂, h₂a.trans (List.sublist_cons_self x xs), h₂b, ?_⟩
      simp [lcsSpec, hxy, h₂len, Nat.max_eq_right hle]
    · refine ⟨c₁, h₁a, h₁b.trans (List.sublist_cons_self y ys), ?_⟩
      simp [lcsSpec, hxy, h₁len, Nat.max_eq_left hle]

theorem lcsSpec_le (a b : List ℕ) :
    ∀ c : List ℕ, c.Sublist a → c.Sublist b → c.length ≤ lcsSpec a b := by
  induction a, b using lcsSpec.induct with
  | case1 b =>
    intro c hca _
    rw [List.sublist_nil.mp hca]
    simp
  | case2 x xs =>
    intro c _ hcb
    rw [List.sublist_nil.mp hcb]
    simp
  | case3 xs y ys ih =>
    intro c hca hcb
    have hspec : lcsSpec (y :: xs) (y :: ys) = lcsSpec xs ys + 1 := by
      simp [lcsSpec]
    rw [hspec]
    cases c with
    | nil => simp
    | cons z zs =>
      have hzs_xs : List.Sublist zs xs := sublist_tail_of_cons_sublist_cons hca
      have hzs_ys : List.Sublist zs ys := sublist_tail_of_cons_sublist_cons hcb
      by_cases hz : z = y
      · simpa using Nat.add_le_add_right (ih zs hzs_xs hzs_ys) 1
      · have hcxs : List.Sublist (z :: zs) xs := by
          cases hca with
          | cons _ h => exact h
          | cons₂ _ h => exact absurd rfl hz
        have hcys : List.Sublist (z :: zs) ys := by
          cases hcb with
          | cons _ h => exact h
          | cons₂ _ h => exact absurd rfl hz
        exact (ih _ hcxs hcys).trans (Nat.le_succ _)
  | case4 x xs y ys hxy ih₁ ih₂ =>
    intro c hca hcb
    have hspec : lcsSpec (x :: xs) (y :: ys) =
        Nat.max (lcsSpec (x :: xs) ys) (lcsSpec xs (y :: ys)) := by
      simp [lcsSpec, hxy]
    rw [hspec]
    cases hcb with
    | cons _ h => exact (ih₁ c hca h).trans (Nat.le_max_left _ _)
    | cons₂ _ h =>
      cases hca with
      | cons _ h' => exact (ih₂ _ h' (h.cons₂ y)).trans (Nat.le_max_right _ _)
      | cons₂ _ h' => exact absurd rfl hxy

theorem lcsSpec_reverse (a b : List ℕ) :
    lcsSpec a.reverse b.reverse = lcsSpec a b := by
  apply Nat.le_antisymm
  · obtain ⟨c, hca, hcb, hlen⟩ := lcsSpec_exists a.reverse b.reverse
    have hca' : c.reverse.Sublist a := List.sublist_reverse_iff.mp hca
    have hcb' : c.reverse.Sublist b := List.sublist_reverse_iff.mp hcb
    calc lcsSpec a.reverse b.reverse = c.reverse.length := by simp [hlen]
    _ ≤ lcsSpec a b := lcsSpec_le a b c.reverse hca' hcb'
  · obtain ⟨c, hca, hcb, hlen⟩ := lcsSpec_exists a b
    have hca' : c.reverse.Sublist a.reverse := List.reverse_sublist.mpr hca
    have hcb' : c.reverse.Sublist b.reverse := List.reverse_sublist.mpr hcb
    calc lcsSpec a b = c.reverse.length := by simp [hlen]
    _ ≤ lcsSpec a.reverse b.reverse := lcsSpec_le _ _ c.reverse hca' hcb'

theorem lcs_length_eq_lcsSpec (a b : List ℕ) : lcs_length a b = lcsSpec a b := by
  rw [lcs_length_eq_lcsSpec_reverse, lcsSpec_reverse]

theorem lcs_length_exists (a b : List ℕ) :
    ∃ c : List ℕ, c.Sublist a ∧ c.Sublist b ∧ c.length = lcs_length a b := by
  rw [lcs_length_eq_lcsSpec]; exact lcsSpec_exists a b

theorem lcs_length_le (a b : List ℕ) (c : List ℕ) (hca : c.Sublist a) (hcb : c.Sublist b) :
    c.length ≤ lcs_length a b := by
  rw [lcs_length_eq_lcsSpec]; exact lcsSpec_le a b c hca hcb

theorem lcs_length_le_left (a b : List ℕ) : lcs_length a b ≤ a.length := by
  obtain ⟨c, hca, _, hlen⟩ := lcs_length_exists a b
  rw [← hlen]; exact hca.length_le

theorem lcs_length_le_right (a b : List ℕ) : lcs_length a b ≤ b.length := by
  obtain ⟨c, _, hcb, hlen⟩ := lcs_length_exists a b
  rw [← hlen]; exact hcb.length_le

/-! ## Similarity scorer lemmas -/

theorem mkRat_nat_eq_div (x y : ℕ) : mkRat (x : ℤ) y = (x : ℚ) / (y : ℚ) := by
  rw [Rat.mkRat_eq_divInt, Rat.divInt_eq_div]
  push_cast
  ring

theorem lcs_ratio_bounds (xB yB : List ℕ) (hx : xB ≠ []) (_hy : yB ≠ []) :
    ∃ q : ℚ, fdivNat (2 * lcs_length xB yB) (xB.length + yB.length) = F.val q ∧
      0 ≤ q ∧ q ≤ 1 := by
  have hden : xB.length + yB.length ≠ 0 := by
    have := List.length_pos.mpr hx
    omega
  have hdenQ : (0 : ℚ) < ((xB.length + yB.length : ℕ) : ℚ) := by
    exact_mod_cast Nat.pos_of_ne_zero hden
  rw [fdivNat_eq, if_neg hden]
  refine ⟨_, rfl, div_nonneg (by positivity) hdenQ.le, ?_⟩
  rw [div_le_one hdenQ]
  have hle : 2 * lcs_length xB yB ≤ xB.length + yB.length := by
    have h1 := lcs_length_le_left xB yB
    have h2 := lcs_length_le_right xB yB
    omega
  exact_mod_cast hle

theorem raw_similarity_ratio_bounds (x y : Str) :
    ∃ q : ℚ, raw_similarity_ratio x y = F.val q ∧ 0 ≤ q ∧ q ≤ 1 := by
  unfold raw_similarity_ratio
  by_cases hxy : x = [] ∧ y = []
  · rw [if_pos hxy]
    exact ⟨1, rfl, by norm_num⟩
  · rw [if_neg hxy]
    by_cases hor : x = [] ∨ y = []
    · rw [if_pos hor]
      exact ⟨0, rfl, by norm_num⟩
    · rw [if_neg hor]
      push_neg at hor
      exact lcs_ratio_bounds (strBytes x) (strBytes y)
        (fun h => hor.1 ((strBytes_eq_nil_iff x).mp h))
        (fun h => hor.2 ((strBytes_eq_nil_iff y).mp h))

theorem similarity_ratio_of_ne (a b : Str) (ha : a ≠ []) (hb : b ≠ []) :
    similarity_ratio a b =
      (if (fdivNat
            (Nat.min (strBytes (normalize_text a)).length (strBytes (normalize_text b)).length)
            (Nat.max (strBytes (normalize_text a)).length
              (strBytes (normalize_text b)).length)).ltQ (mkRat 1 2) then
        fdivNat
          (Nat.min (strBytes (normalize_text a)).length (strBytes (normalize_text b)).length)
          (Nat.max (strBytes (normalize_text a)).length (strBytes (normalize_text b)).length)
      else
        fdivNat (2 * lcs_length (strBytes (normalize_text a)) (strBytes (normalize_text b)))
          ((strBytes (normalize_text a)).length + (strBytes (normalize_text b)).length)) := by
  unfold similarity_ratio
  rw [if_neg (by simp [ha]), if_neg (by simp [ha, hb])]

theorem min_div_max_lt_half_iff (m M : ℕ) (hM : 0 < M) :
    ((m : ℚ) / (M : ℚ) < mkRat 1 2) ↔ 2 * m < M := by
  have h2 : mkRat (1 : ℤ) 2 = ((1 : ℕ) : ℚ) / ((2 : ℕ) : ℚ) := mkRat_nat_eq_div 1 2
  rw [h2]
  have hMQ : (0 : ℚ) < (M : ℚ) := by exact_mod_cast hM
  rw [div_lt_div_iff₀ hMQ (by norm_num : (0 : ℚ) < ((2 : ℕ) : ℚ))]
  constructor
  · intro h
    have h' : (m : ℚ) * 2 < M := by push_cast at h ⊢; linarith
    exact_mod_cast (by push_cast at h' ⊢; linarith : ((2 * m : ℕ) : ℚ) < (M : ℚ))
  · intro h
    have h' : ((2 * m : ℕ) : ℚ) < (M : ℚ) := by exact_mod_cast h
    push_cast at h' ⊢
    linarith

theorem similarity_ratio_precheck (a b : Str) (ha : a ≠ []) (hb : b ≠ [])
    (h : 2 * Nat.min (strBytes (normalize_text a)).length (strBytes (normalize_text b)).length <
      Nat.max (strBytes (normalize_text a)).length (strBytes (normalize_text b)).length) :
    similarity_ratio a b =
      F.val ((Nat.min (strBytes (normalize_text a)).length (strBytes (normalize_text b)).length : ℚ) /
        (Nat.max (strBytes (normalize_text a)).length (strBytes (normalize_text b)).length : ℚ)) := by
  have hM : 0 < Nat.max (strBytes (normalize_text a)).length (strBytes (normalize_text b)).length := by
    omega
  rw [similarity_ratio_of_ne a b ha hb]
  rw [fdivNat, if_neg (Nat.pos_iff_ne_zero.mp hM)]
  have hcond : (F.val (mkRat (Nat.min (strBytes (normalize_text a)).length
      (strBytes (normalize_text b)).length : ℤ)
      (Nat.max (strBytes (normalize_text a)).length
        (strBytes (normalize_text b)).length))).ltQ (mkRat 1 2) = true := by
    simp only [F.ltQ, mkRat_nat_eq_div, decide_eq_true_eq]
    exact (min_div_max_lt_half_iff _ _ hM).mpr h
  simp only [hcond, if_true]
  rw [mkRat_nat_eq_div]

theorem similarity_ratio_lcs (a b : Str) (ha : a ≠ []) (hb : b ≠ [])
    (hM : 0 < Nat.max (strBytes (normalize_text a)).length (strBytes (normalize_text b)).length)
    (h : Nat.max (strBytes (normalize_text a)).length (strBytes (normalize_text b)).length ≤
      2 * Nat.min (strBytes (normalize_text a)).length (strBytes (normalize_text b)).length) :
    similarity_ratio a b =
      fdivNat (2 * lcs_length (strBytes (normalize_text a)) (strBytes (normalize_text b)))
        ((strBytes (normalize_text a)).length + (strBytes (normalize_text b)).length) := by
  rw [similarity_ratio_of_ne a b ha hb]
  rw [fdivNat, if_neg (Nat.pos_iff_ne_zero.mp hM)]
  have hcond : (F.val (mkRat (Nat.min (strBytes (normalize_text a)).length
      (strBytes (normalize_text b)).length : ℤ)
      (Nat.max (strBytes (normalize_text a)).length
        (strBytes (normalize_text b)).length))).ltQ (mkRat 1 2) = false := by
    simp only [F.ltQ, mkRat_nat_eq_div, decide_eq_false_iff_not, not_lt]
    exact le_of_not_lt fun hlt =>
      absurd ((min_div_max_lt_half_iff _ _ hM).mp hlt) (by omega)
  simp only [hcond, Bool.false_eq_true, if_false]

/-! ## Clustering engine lemmas -/

theorem headD_mem {l : List ℕ} (h : l ≠ []) (d : ℕ) : l.headD d ∈ l := by
  cases l with
  | nil => exact absurd rfl h
  | cons a as => simp

theorem headD_append_left {l l' : List ℕ} (h : l ≠ []) (d : ℕ) :
    (l ++ l').headD d = l.headD d := by
  cases l with
  | nil => exact absurd rfl h
  | cons a as => simp

theorem placeItem_firstFit (normed : List Str) (t : ℚ) (i : ℕ) (x : Str)
    (cs : List (List ℕ)) :
    placeItem normed t i x cs =
      match firstFit normed t x cs with
      | some k => cs.set k (cs.getD k [] ++ [i])
      | none => cs ++ [[i]] := by
  induction cs with
  | nil => rfl
  | cons c cs ih =>
    simp only [firstFit] at ih ⊢
    rw [List.findIdx?_cons]
    by_cases hc : F.geQ (raw_similarity_ratio x (normed.getD (c.headD 0) [])) t = true
    · rw [placeItem, if_pos hc, if_pos hc]
      rfl
    · rw [placeItem, if_neg hc, if_neg hc, List.findIdx?_succ, ih]
      cases List.findIdx?
          (fun c => F.geQ (raw_similarity_ratio x (normed.getD (c.headD 0) [])) t) cs with
      | none => rfl
      | some k => rfl

theorem clusterLoop_append (normed : List Str) (t : ℚ) (x : Str) (xs : List Str) :
    ∀ (i : ℕ) (cs : List (List ℕ)),
      clusterLoop normed t i (xs ++ [x]) cs =
        placeItem normed t (i + xs.length) x (clusterLoop normed t i xs cs) := by
  induction xs with
  | nil => intro i cs; simp [clusterLoop]
  | cons y ys ih =>
    intro i cs
    have step : clusterLoop normed t i ((y :: ys) ++ [x]) cs =
        clusterLoop normed t (i + 1) (ys ++ [x]) (placeItem normed t i y cs) := rfl
    rw [step, ih (i + 1)]
    have harith : i + 1 + ys.length = i + (y :: ys).length := by
      simp only [List.length_cons]
      omega
    rw [harith]
    rfl

theorem placeItem_flatten_perm (normed : List Str) (t : ℚ) (i : ℕ) (x : Str)
    (cs : List (List ℕ)) :
    (placeItem normed t i x cs).flatten.Perm (cs.flatten ++ [i]) := by
  induction cs with
  | nil => simp [placeItem]
  | cons c cs ih =>
    by_cases hc : F.geQ (raw_similarity_ratio x (normed.getD (c.headD 0) [])) t = true
    · simp only [placeItem, hc, if_true, List.flatten_cons, List.append_assoc]
      exact List.Perm.append_left c List.perm_append_comm
    · have hcf : F.geQ (raw_similarity_ratio x (normed.getD (c.headD 0) [])) t = false :=
        eq_false_of_ne_true hc
      simp only [placeItem, hcf, Bool.false_eq_true, if_false, List.flatten_cons,
        List.append_assoc]
      exact List.Perm.append_left c ih

theorem clusterLoop_flatten_perm (normed : List Str) (t : ℚ) (xs : List Str) :
    ∀ (i : ℕ) (cs : List (List ℕ)),
      (clusterLoop normed t i xs cs).flatten.Perm (cs.flatten ++ List.range' i xs.length) := by
  induction xs with
  | nil => intro i cs; simp [clusterLoop]
  | cons y ys ih =>
    intro i cs
    simp only [clusterLoop, List.length_cons]
    refine (ih (i + 1) (placeItem normed t i y cs)).trans ?_
    rw [List.range'_succ]
    refine (List.Perm.append_right _ (placeItem_flatten_perm normed t i y cs)).trans ?_
    rw [List.append_assoc, List.singleton_append]

theorem placeItem_inv (normed : List Str) (t : ℚ) (i : ℕ) (x : Str)
    (cs : List (List ℕ)) :
    (∀ c ∈ cs, c ≠ [] ∧ ∀ j ∈ c, j < i ∧ c.headD 0 ≤ j) →
    ∀ c ∈ placeItem normed t i x cs, c ≠ [] ∧ ∀ j ∈ c, j < i + 1 ∧ c.headD 0 ≤ j := by
  induction cs with
  | nil =>
    intro _ c hc
    simp only [placeItem, List.mem_singleton] at hc
    subst hc
    refine ⟨by simp, ?_⟩
    intro j hj
    simp only [List.mem_singleton] at hj
    subst hj
    simp
  | cons c0 cs ih =>
    intro h
    have hc0 := h c0 (List.mem_cons_self c0 cs)
    have hrest : ∀ c ∈ cs, c ≠ [] ∧ ∀ j ∈ c, j < i ∧ c.headD 0 ≤ j :=
      fun c hc => h c (List.mem_cons_of_mem c0 hc)
    have hkeep : ∀ c ∈ cs, c ≠ [] ∧ ∀ j ∈ c, j < i + 1 ∧ c.headD 0 ≤ j :=
      fun c hc => ⟨(hrest c hc).1,
        fun j hj => ⟨Nat.lt_succ_of_lt ((hrest c hc).2 j hj).1, ((hrest c hc).2 j hj).2⟩⟩
    have hgrown : ∀ j ∈ c0 ++ [i], j < i + 1 ∧ (c0 ++ [i]).headD 0 ≤ j := by
      intro j hj
      rw [headD_append_left hc0.1]
      rcases List.mem_append.mp hj with hj | hj
      · exact ⟨Nat.lt_succ_of_lt (hc0.2 j hj).1, (hc0.2 j hj).2⟩
      · simp only [List.mem_singleton] at hj
        subst hj
        refine ⟨Nat.lt_succ_self _, ?_⟩
        have hd := hc0.2 (c0.headD 0) (headD_mem hc0.1 0)
        omega
    intro c hc
    by_cases hg : F.geQ (raw_similarity_ratio x (normed.getD (c0.headD 0) [])) t = true
    · simp only [placeItem, hg, if_true, List.mem_cons] at hc
      rcases hc with rfl | hc
      · exact ⟨by simp, hgrown⟩
      · exact hkeep c hc
    · have hgf : F.geQ (raw_similarity_ratio x (normed.getD (c0.headD 0) [])) t = false :=
        eq_false_of_ne_true hg
      simp only [placeItem, hgf, Bool.false_eq_true, if_false, List.mem_cons] at hc
      rcases hc with rfl | hc
      · exact ⟨hc0.1, fun j hj =>
          ⟨Nat.lt_succ_of_lt (hc0.2 j hj).1, (hc0.2 j hj).2⟩⟩
      · exact ih hrest c hc

theorem clusterLoop_inv (normed : List Str) (t : ℚ) (xs : List Str) :
    ∀ (i : ℕ) (cs : List (List ℕ)),
      (∀ c ∈ cs, c ≠ [] ∧ ∀ j ∈ c, j < i ∧ c.headD 0 ≤ j) →
      ∀ c ∈ clusterLoop normed t i xs cs,
        c ≠ [] ∧ ∀ j ∈ c, j < i + xs.length ∧ c.headD 0 ≤ j := by
  induction xs with
  | nil => intro i cs h; simpa [clusterLoop] using h
  | cons y ys ih =>
    intro i cs h
    simp only [clusterLoop, List.length_cons]
    have h' := placeItem_inv normed t i y cs h
    intro c hc
    obtain ⟨h1, h2⟩ := ih (i + 1) (placeItem normed t i y cs) h' c hc
    exact ⟨h1, fun j hj => ⟨by have := (h2 j hj).1; omega, (h2 j hj).2⟩⟩

theorem cluster_titles_inv (ts : List Str) (t : ℚ) :
    ∀ c ∈ cluster_titles ts t, c ≠ [] ∧ ∀ j ∈ c, j < ts.length ∧ c.headD 0 ≤ j := by
  unfold cluster_titles
  have h := clusterLoop_inv (ts.map normalize_text) t (ts.map normalize_text) 0 []
    (by simp)
  simpa using h

theorem cluster_titles_flatten_perm (ts : List Str) (t : ℚ) :
    (cluster_titles ts t).flatten.Perm (List.range ts.length) := by
  unfold cluster_titles
  have h := clusterLoop_flatten_perm (ts.map normalize_text) t (ts.map normalize_text) 0 []
  simpa [List.range_eq_range'] using h

theorem placeItem_low (normed : List Str) (t : ℚ) (ht : t ≤ 0) (i : ℕ) (x : Str)
    (c : List ℕ) : placeItem normed t i x [c] = [c ++ [i]] := by
  obtain ⟨q, hq, hq0, _⟩ := raw_similarity_ratio_bounds x (normed.getD (c.headD 0) [])
  have hg : F.geQ (raw_similarity_ratio x (normed.getD (c.headD 0) [])) t = true := by
    rw [hq]
    simp only [F.geQ, decide_eq_true_eq]
    linarith
  simp only [placeItem, hg, if_true]

theorem clusterLoop_low (normed : List Str) (t : ℚ) (ht : t ≤ 0) (xs : List Str) :
    ∀ (i : ℕ) (c : List ℕ),
      clusterLoop normed t i xs [c] = [c ++ List.range' i xs.length] := by
  induction xs with
  | nil => intro i c; simp [clusterLoop]
  | cons y ys ih =>
    intro i c
    show clusterLoop normed t (i + 1) ys (placeItem normed t i y [c]) = _
    rw [placeItem_low normed t ht i y c, ih (i + 1) (c ++ [i]), List.length_cons,
      List.range'_succ, List.append_assoc, List.singleton_append]

theorem placeItem_high (normed : List Str) (t : ℚ) (ht : 1 < t) (i : ℕ) (x : Str)
    (cs : List (List ℕ)) : placeItem normed t i x cs = cs ++ [[i]] := by
  induction cs with
  | nil => rfl
  | cons c cs ih =>
    obtain ⟨q, hq, _, hq1⟩ := raw_similarity_ratio_bounds x (normed.getD (c.headD 0) [])
    have hg : F.geQ (raw_similarity_ratio x (normed.getD (c.headD 0) [])) t = false := by
      rw [hq]
      simp only [F.geQ, decide_eq_false_iff_not, not_le]
      linarith
    simp only [placeItem, hg, Bool.false_eq_true, if_false, ih, List.cons_append]

theorem clusterLoop_high (normed : List Str) (t : ℚ) (ht : 1 < t) (xs : List Str) :
    ∀ (i : ℕ) (cs : List (List ℕ)),
      clusterLoop normed t i xs cs = cs ++ (List.range' i xs.length).map (fun j => [j]) := by
  induction xs with
  | nil => intro i cs; simp [clusterLoop]
  | cons y ys ih =>
    intro i cs
    show clusterLoop normed t (i + 1) ys (placeItem normed t i y cs) = _
    rw [placeItem_high normed t ht i y cs, ih (i + 1), List.length_cons,
      List.range'_succ, List.map_cons, List.append_assoc, List.singleton_append]

theorem raw_similarity_ratio_nil_nil : raw_similarity_ratio [] [] = F.val 1 := rfl

theorem cluster_titles_single (a : Str) (t : ℚ) : cluster_titles [a] t = [[0]] := rfl

theorem cluster_titles_pair (a b : Str) (t : ℚ) :
    cluster_titles [a, b] t =
      if F.geQ (raw_similarity_ratio (normalize_text b) (normalize_text a)) t then [[0, 1]]
      else [[0], [1]] := by
  by_cases hg : F.geQ (raw_similarity_ratio (normalize_text b) (normalize_text a)) t = true
  · simp [cluster_titles, clusterLoop, placeItem, hg]
  · simp [cluster_titles, clusterLoop, placeItem, hg]

theorem nat_max_le_add (a b : ℕ) : Nat.max a b ≤ a + b :=
  Nat.max_le.mpr ⟨Nat.le_add_right a b, Nat.le_add_left b a⟩

theorem nat_min_le_left (a b : ℕ) : Nat.min a b ≤ a := Nat.min_le_left a b

theorem nat_min_le_right (a b : ℕ) : Nat.min a b ≤ b := Nat.min_le_right a b

/-! ## Claim theorems -/

/-- Claim C1 (code bug): the spec promises that `similarity_ratio` is total and
returns a value in [0.0, 1.0] for every pair of strings, including
whitespace-only ones; but on the non-empty inputs `" "` and `"\t"`, which both
normalize to the empty string, the code computes `0.0 / 0.0` twice (length
ratio and final ratio) and returns NaN, contradicting its own doc comment
"(0.0 to 1.0)". -/
theorem C1_similarity_nan_on_whitespace_input :
    similarity_ratio [' '] ['\t'] = F.nan ∧
      ([' '] : Str) ≠ [] ∧ (['\t'] : Str) ≠ [] := by
  decide

/-- Claim C8 (code bug): the spec promises reflexivity,
`similarity_ratio(a, a) = 1.0` for every string `a`, but for the whitespace-only
string `" "` the code returns NaN. -/
theorem C8_reflexivity_nan_on_whitespace :
    similarity_ratio [' '] [' '] = F.nan ∧ ([' '] : Str) ≠ [] := by
  decide

set_option maxRecDepth 100000 in
/-- Claim C2 (refuted): raising the threshold is not a refinement of the
partition.  On the titles "aaaa", "accc", "cccc" the lower threshold 1/5 yields
the partition {0,1},{2} while the higher threshold 7/10 yields {0},{1,2}: the
cluster {1,2} produced at the higher threshold is not contained in any single
cluster of the lower-threshold partition. -/
theorem C2_threshold_refinement_cex :
    mkRat 1 5 ≤ mkRat 7 10 ∧
    cluster_titles [("aaaa").toList, ("accc").toList, ("cccc").toList] (mkRat 1 5) =
      [[0, 1], [2]] ∧
    cluster_titles [("aaaa").toList, ("accc").toList, ("cccc").toList] (mkRat 7 10) =
      [[0], [1, 2]] ∧
    ¬ ∀ c ∈ cluster_titles [("aaaa").toList, ("accc").toList, ("cccc").toList] (mkRat 7 10),
        ∃ c' ∈ cluster_titles [("aaaa").toList, ("accc").toList, ("cccc").toList] (mkRat 1 5),
          c ⊆ c' := by
  decide

/-- Claim C2 (amended): for input sequences of at most two titles, every
cluster produced at the higher threshold is contained in a single cluster
produced at the lower threshold; with three or more titles this can fail. -/
theorem C2_threshold_refinement_two_titles (ts : List Str) (t₁ t₂ : ℚ)
    (hlen : ts.length ≤ 2) (h12 : t₁ ≤ t₂) :
    ∀ c ∈ cluster_titles ts t₂, ∃ c' ∈ cluster_titles ts t₁, c ⊆ c' := by
  rcases ts with _ | ⟨a, _ | ⟨b, _ | ⟨x, rest⟩⟩⟩
  · intro c hc
    simp only [cluster_titles, List.map_nil, clusterLoop, List.not_mem_nil] at hc
  · intro c hc
    rw [cluster_titles_single] at hc
    simp only [List.mem_singleton] at hc
    subst hc
    exact ⟨[0], by rw [cluster_titles_single]; simp, fun j hj => hj⟩
  · intro c hc
    rw [cluster_titles_pair] at hc
    by_cases hg2 : F.geQ (raw_similarity_ratio (normalize_text b) (normalize_text a)) t₂ = true
    · have hg1 := geQ_mono h12 hg2
      rw [if_pos hg2] at hc
      simp only [List.mem_singleton] at hc
      subst hc
      exact ⟨[0, 1], by rw [cluster_titles_pair, if_pos hg1]; simp, fun j hj => hj⟩
    · rw [if_neg hg2] at hc
      by_cases hg1 : F.geQ (raw_similarity_ratio (normalize_text b) (normalize_text a)) t₁ = true
      · refine ⟨[0, 1], by rw [cluster_titles_pair, if_pos hg1]; simp, ?_⟩
        simp only [List.mem_cons, List.not_mem_nil, or_false] at hc
        rcases hc with rfl | rfl
        · decide
        · decide
      · exact ⟨c, by rw [cluster_titles_pair, if_neg hg1]; exact hc, fun j hj => hj⟩
  · simp only [List.length_cons] at hlen
    omega

set_option maxRecDepth 100000 in
/-- Witness for the amended claim C2, at the concrete pair "ab", "cd" with
thresholds 0 and 1. -/
theorem C2_threshold_refinement_two_titles_witness :
    ∃ c' ∈ cluster_titles [("ab").toList, ("cd").toList] (mkRat 0 1), [0] ⊆ c' :=
  C2_threshold_refinement_two_titles [("ab").toList, ("cd").toList] (mkRat 0 1) (mkRat 1 1)
    (by decide) (by decide) [0] (by decide)

/-- Claim C3 (refuted): the internal scorer does not agree with the public one
on every pair of non-empty strings: on "aa" and "aaaaa" the public scorer
returns the length ratio 2/5 from the pre-check, while the internal scorer,
which has no pre-check, returns the LCS ratio 4/7. -/
theorem C3_internal_scorer_cex :
    (("aa").toList : Str) ≠ [] ∧ (("aaaaa").toList : Str) ≠ [] ∧
    raw_similarity_ratio (normalize_text (("aa").toList))
        (normalize_text (("aaaaa").toList)) ≠
      similarity_ratio (("aa").toList) (("aaaaa").toList) := by
  decide

/-- Claim C3 (amended): for non-empty inputs whose normalized byte lengths pass
the length-ratio pre-check (positive maximum length and ratio at least 0.5),
the internal scorer applied to the normalized strings agrees exactly with the
public `similarity_ratio`. -/
theorem C3_internal_scorer_agrees_after_precheck (a b : Str) (ha : a ≠ []) (hb : b ≠ [])
    (hM : 0 < Nat.max (strBytes (normalize_text a)).length (strBytes (normalize_text b)).length)
    (h : Nat.max (strBytes (normalize_text a)).length (strBytes (normalize_text b)).length ≤
      2 * Nat.min (strBytes (normalize_text a)).length (strBytes (normalize_text b)).length) :
    raw_similarity_ratio (normalize_text a) (normalize_text b) = similarity_ratio a b := by
  rw [similarity_ratio_lcs a b ha hb hM h]
  have hmin : 0 < Nat.min (strBytes (normalize_text a)).length
      (strBytes (normalize_text b)).length := by
    omega
  have hna : normalize_text a ≠ [] := by
    intro hnil
    have hz : (strBytes (normalize_text a)).length = 0 := by rw [hnil]; rfl
    have hle := nat_min_le_left (strBytes (normalize_text a)).length
      (strBytes (normalize_text b)).length
    omega
  have hnb : normalize_text b ≠ [] := by
    intro hnil
    have hz : (strBytes (normalize_text b)).length = 0 := by rw [hnil]; rfl
    have hle := nat_min_le_right (strBytes (normalize_text a)).length
      (strBytes (normalize_text b)).length
    omega
  unfold raw_similarity_ratio
  rw [if_neg (by simp [hna]), if_neg (by simp [hna, hnb])]

/-- Witness for the amended claim C3, at the concrete pair "ab", "ba". -/
theorem C3_internal_scorer_agrees_after_precheck_witness :
    raw_similarity_ratio (normalize_text (("ab").toList)) (normalize_text (("ba").toList)) =
      similarity_ratio (("ab").toList) (("ba").toList) :=
  C3_internal_scorer_agrees_after_precheck (("ab").toList) (("ba").toList)
    (by decide) (by decide) (by decide) (by decide)

/-- Claim C4 (confirmed): `placeItem` (the inner loop of `cluster_titles`)
assigns the item to the first cluster, in creation order, whose
representative's score meets or exceeds the threshold (the comparison is `>=`
and the scan stops at the first hit); if none qualifies, a new singleton
cluster is appended.  `clusterLoop` processes items in input order (appending
an item to the input processes it last, against the clusters of the prefix).
Every cluster is non-empty and its representative — its first element — is the
smallest (first-inserted) position it contains, and appending never changes the
head, so the representative is never reassigned. -/
theorem C4_first_fit_policy :
    (∀ (normed : List Str) (t : ℚ) (i : ℕ) (x : Str) (cs : List (List ℕ)),
      placeItem normed t i x cs =
        match firstFit normed t x cs with
        | some k => cs.set k (cs.getD k [] ++ [i])
        | none => cs ++ [[i]]) ∧
    (∀ (normed : List Str) (t : ℚ) (x : Str) (xs : List Str) (i : ℕ) (cs : List (List ℕ)),
      clusterLoop normed t i (xs ++ [x]) cs =
        placeItem normed t (i + xs.length) x (clusterLoop normed t i xs cs)) ∧
    (∀ (ts : List Str) (t : ℚ), ∀ c ∈ cluster_titles ts t,
      c ≠ [] ∧ ∀ j ∈ c, c.headD 0 ≤ j) :=
  ⟨placeItem_firstFit,
   fun normed t x xs i cs => clusterLoop_append normed t x xs i cs,
   fun ts t c hc =>
     ⟨(cluster_titles_inv ts t c hc).1, fun j hj => ((cluster_titles_inv ts t c hc).2 j hj).2⟩⟩

/-- Witness for claim C4, at the concrete one-title input "a". -/
theorem C4_first_fit_policy_witness :
    ([0] : List ℕ) ≠ [] ∧ ∀ j ∈ ([0] : List ℕ), ([0] : List ℕ).headD 0 ≤ j :=
  C4_first_fit_policy.2.2 [['a']] 1 [0] (by decide)

/-- Claim C5 (confirmed): the clusters returned by `cluster_titles` form a
partition of the index set: the concatenation of all clusters is a permutation
of `0, …, n-1` (each index exactly once), every cluster is non-empty, and the
empty input yields an empty cluster list. -/
theorem C5_partition_invariant :
    (∀ (ts : List Str) (t : ℚ), (cluster_titles ts t).flatten.Perm (List.range ts.length)) ∧
    (∀ (ts : List Str) (t : ℚ), ∀ c ∈ cluster_titles ts t, c ≠ []) ∧
    (∀ t : ℚ, cluster_titles [] t = []) :=
  ⟨cluster_titles_flatten_perm,
   fun ts t c hc => (cluster_titles_inv ts t c hc).1,
   fun _ => rfl⟩

/-- Witness for claim C5, at the concrete one-title input "b". -/
theorem C5_partition_invariant_witness : ([0] : List ℕ) ≠ [] :=
  C5_partition_invariant.2.1 [['b']] 0 [0] (by decide)

/-- Claim C6 (confirmed): for non-empty inputs passing the length-ratio
pre-check, `similarity_ratio` returns `2 * M / (len_a + len_b)` where `M` is
the LCS length of the normalized byte sequences and the lengths are the
normalized byte lengths; and the two-row dynamic program `lcs_length` computes
exactly the longest-common-subsequence length for all byte sequences: some
common (order-preserving, not necessarily contiguous) subsequence attains it,
and no common subsequence is longer. -/
theorem C6_lcs_ratio_exact :
    (∀ a b : Str, a ≠ [] → b ≠ [] →
      0 < Nat.max (strBytes (normalize_text a)).length (strBytes (normalize_text b)).length →
      Nat.max (strBytes (normalize_text a)).length (strBytes (normalize_text b)).length ≤
        2 * Nat.min (strBytes (normalize_text a)).length (strBytes (normalize_text b)).length →
      similarity_ratio a b =
        F.val (((2 * lcs_length (strBytes (normalize_text a))
            (strBytes (normalize_text b)) : ℕ) : ℚ) /
          (((strBytes (normalize_text a)).length +
            (strBytes (normalize_text b)).length : ℕ) : ℚ))) ∧
    (∀ x y : List ℕ,
      (∃ c : List ℕ, c.Sublist x ∧ c.Sublist y ∧ c.length = lcs_length x y) ∧
      ∀ c : List ℕ, c.Sublist x → c.Sublist y → c.length ≤ lcs_length x y) := by
  constructor
  · intro a b ha hb hM h
    rw [similarity_ratio_lcs a b ha hb hM h, fdivNat_eq, if_neg (by
      have hx := nat_max_le_add (strBytes (normalize_text a)).length
        (strBytes (normalize_text b)).length
      omega)]
  · intro x y
    exact ⟨lcs_length_exists x y, lcs_length_le x y⟩

/-- Witness for claim C6, at the concrete pair "ab", "ba". -/
theorem C6_lcs_ratio_exact_witness :
    similarity_ratio (("ab").toList) (("ba").toList) =
      F.val (((2 * lcs_length (strBytes (normalize_text (("ab").toList)))
          (strBytes (normalize_text (("ba").toList))) : ℕ) : ℚ) /
        (((strBytes (normalize_text (("ab").toList))).length +
          (strBytes (normalize_text (("ba").toList))).length : ℕ) : ℚ)) :=
  C6_lcs_ratio_exact.1 (("ab").toList) (("ba").toList)
    (by decide) (by decide) (by decide) (by decide)

/-- Claim C7 (confirmed): for non-empty inputs whose normalized byte lengths
have `2 * min < max` (length ratio strictly below 0.5, which also rules out the
zero/zero case), `similarity_ratio` returns the length ratio `min / max`
directly. -/
theorem C7_length_ratio_shortcut (a b : Str) (ha : a ≠ []) (hb : b ≠ [])
    (h : 2 * Nat.min (strBytes (normalize_text a)).length (strBytes (normalize_text b)).length <
      Nat.max (strBytes (normalize_text a)).length (strBytes (normalize_text b)).length) :
    similarity_ratio a b =
      F.val ((Nat.min (strBytes (normalize_text a)).length
          (strBytes (normalize_text b)).length : ℚ) /
        (Nat.max (strBytes (normalize_text a)).length
          (strBytes (normalize_text b)).length : ℚ)) :=
  similarity_ratio_precheck a b ha hb h

/-- Witness for claim C7, at the concrete pair "aa", "aaaaa". -/
theorem C7_length_ratio_shortcut_witness :
    similarity_ratio (("aa").toList) (("aaaaa").toList) =
      F.val ((Nat.min (strBytes (normalize_text (("aa").toList))).length
          (strBytes (normalize_text (("aaaaa").toList))).length : ℚ) /
        (Nat.max (strBytes (normalize_text (("aa").toList))).length
          (strBytes (normalize_text (("aaaaa").toList))).length : ℚ)) :=
  C7_length_ratio_shortcut (("aa").toList) (("aaaaa").toList)
    (by decide) (by decide) (by decide)

/-- Claim C9 (confirmed): `cluster_titles` accepts any threshold; on a
non-empty input a threshold at most 0 yields a single cluster holding all
positions in order, and a threshold above 1 yields one singleton cluster per
position. -/
theorem C9_threshold_extremes (ts : List Str) (t : ℚ) (hts : ts ≠ []) :
    (t ≤ 0 → cluster_titles ts t = [List.range ts.length]) ∧
    (1 < t → cluster_titles ts t = (List.range ts.length).map fun j => [j]) := by
  constructor
  · intro ht
    rcases ts with _ | ⟨a, as⟩
    · exact absurd rfl hts
    · show clusterLoop ((a :: as).map normalize_text) t 1 (as.map normalize_text) [[0]] = _
      rw [clusterLoop_low ((a :: as).map normalize_text) t ht (as.map normalize_text) 1 [0]]
      simp [List.range_eq_range', List.range'_succ]
  · intro ht
    show clusterLoop (ts.map normalize_text) t 0 (ts.map normalize_text) [] = _
    rw [clusterLoop_high (ts.map normalize_text) t ht (ts.map normalize_text) 0 []]
    simp [List.range_eq_range']

/-- Witness for claim C9, at the concrete one-title input "a" with
threshold 0. -/
theorem C9_threshold_extremes_witness : cluster_titles [['a']] 0 = [List.range 1] :=
  (C9_threshold_extremes [['a']] 0 (by decide)).1 (le_refl 0)

/-- Claim C10 (confirmed): the internal scorer always returns a rational in
[0, 1] — never NaN — because it checks emptiness of its actual arguments
before dividing; consequently two titles that both normalize to the empty
string score 1.0 against each other and, for any threshold at most 1, are
clustered together. -/
theorem C10_raw_scorer_total :
    (∀ x y : Str, ∃ q : ℚ, raw_similarity_ratio x y = F.val q ∧ 0 ≤ q ∧ q ≤ 1) ∧
    (∀ s₁ s₂ : Str, normalize_text s₁ = [] → normalize_text s₂ = [] →
      raw_similarity_ratio (normalize_text s₁) (normalize_text s₂) = F.val 1 ∧
      ∀ t : ℚ, t ≤ 1 → cluster_titles [s₁, s₂] t = [[0, 1]]) := by
  refine ⟨raw_similarity_ratio_bounds, ?_⟩
  intro s₁ s₂ h1 h2
  constructor
  · rw [h1, h2]
    exact raw_similarity_ratio_nil_nil
  · intro t ht
    have hg : F.geQ (raw_similarity_ratio (normalize_text s₂) (normalize_text s₁)) t = true := by
      rw [h1, h2, raw_similarity_ratio_nil_nil]
      simp only [F.geQ, decide_eq_true_eq]
      exact ht
    rw [cluster_titles_pair, if_pos hg]

/-- Witness for claim C10, at the concrete whitespace-only pair " ", "\t" with
threshold 1. -/
theorem C10_raw_scorer_total_witness :
    raw_similarity_ratio (normalize_text [' ']) (normalize_text ['\t']) = F.val 1 ∧
      cluster_titles [[' '], ['\t']] 1 = [[0, 1]] := by
  have h := C10_raw_scorer_total.2 [' '] ['\t'] (by decide) (by decide)
  exact ⟨h.1, h.2 1 (le_refl 1)⟩

end FuzzyDedupe
